import Mathlib

/-!
Verification development for the RiftSerializer repository
(include/Common/Common.h, include/Types/Types.h, include/Traits/Traits.h,
include/Builder/Builder.h, include/Accessor/Accessor.h).

Modelling conventions.
The builder's byte buffer (std::vector<uint8> m_buffer together with the
write cursor m_current_offset) is modelled as a List Nat of the bytes in
[0, m_current_offset); every write keeps the list and the cursor in sync,
exactly as WriteRaw / PadToAlignment do in the source.  Machine integers
are Nat with explicit reductions modulo 2 ^ 32 or 2 ^ 64 where the source
casts or masks.  The host is little endian (the source refuses to compile
otherwise unless RIFT_SERIALIZER_HOST_BIG_ENDIAN is set), so the
integral to_little_endian / from_little_endian are the identity branch of
the source.  RIFT_ASSERT is a macro that aborts when RIFT_SERIALIZER_DEBUG
is defined and compiles to nothing otherwise; it is modelled by a Bool
debug flag, an Option result, and none standing for the abort.  Absolute
machine addresses are modelled with the buffer based at address zero, so
pointer alignment checks become alignment checks on byte offsets.
-/

namespace RiftSerializer

/-! ## Byte-level primitives -/

/-- Byte i of a buffer, 0 when out of range (reads past the tracked length
land in unspecified vector capacity; no proved statement depends on the
default). -/
def byteAt : List Nat → Nat → Nat
  | [], _ => 0
  | b :: _, 0 => b
  | _ :: l, n + 1 => byteAt l n

/-- Overwrite byte n of a buffer in place; out-of-range writes land beyond
the tracked length and are dropped (any later append overwrites that
region with its own bytes, as WriteRaw does with memcpy). -/
def setByte : List Nat → Nat → Nat → List Nat
  | [], _, _ => []
  | _ :: l, 0, v => v :: l
  | b :: l, n + 1, v => b :: setByte l n v

/-- Overwrite a run of bytes starting at off (models memcpy into an
existing region of the buffer). -/
def patchBytes : List Nat → Nat → List Nat → List Nat
  | l, _, [] => l
  | l, off, b :: bs => patchBytes (setByte l off b) (off + 1) bs

/-- Little-endian byte image of a w-byte machine integer, exactly the bytes
memcpy places for a value stored on a little-endian host. -/
def leBytes : Nat → Nat → List Nat
  | 0, _ => []
  | w + 1, v => v % 256 :: leBytes w (v / 256)

/-- Little-endian read of w bytes at a given offset, the value obtained by
reinterpreting those bytes as a w-byte integer on a little-endian host. -/
def readLE : List Nat → Nat → Nat → Nat
  | _, _, 0 => 0
  | buf, off, w + 1 => byteAt buf off + 256 * readLE buf (off + 1) w

/-! ## Common.h: constants, endian conversion, alignment utilities -/

/-- Magic constant RFS0, Common.h line 30. -/
def RIFT_MAGIC_NUMBER : Nat := 0x30534652

/-- RIFT_ASSERT (Common.h lines 258-270): with RIFT_SERIALIZER_DEBUG the
macro aborts the process when the condition is false (modelled none); in
release builds it expands to nothing, so every condition passes. -/
def riftAssert (debug cond : Bool) : Option Unit :=
  if debug && !cond then none else some ()

/-- Integral to_little_endian (Common.h lines 154-161): the host is little
endian, so the compiled branch returns the value unchanged.  The float and
double overloads memcpy the value into the same-width unsigned integer,
convert, and memcpy back, so on bit patterns they are this same identity. -/
def to_little_endian (value : Nat) : Nat := value

/-- Integral from_little_endian (Common.h lines 163-170), identity on a
little-endian host, same remark for float and double bit patterns. -/
def from_little_endian (value : Nat) : Nat := value

/-- Byte i of a value: the expression (value >> (i * 8)) & 0xFF from
swap_bytes_generic. -/
def getByte (value i : Nat) : Nat := (value >>> (i * 8)) &&& 255

/-- Loop body accumulation of swap_bytes_generic (Common.h lines 107-115)
for a w-byte unsigned integral type: after n iterations the result holds
bytes 0..n-1 of the input, each byte i placed at byte position w-1-i. -/
def swapBytesAux (w value : Nat) : Nat → Nat
  | 0 => 0
  | i + 1 => swapBytesAux w value i |||
      (((value >>> (i * 8)) &&& 255) <<< ((w - 1 - i) * 8))

/-- swap_bytes_generic (Common.h lines 107-115), w = sizeof(T). -/
def swapBytesGeneric (w value : Nat) : Nat := swapBytesAux w value w

/-- align_up (Common.h lines 234-236): (offset + alignment - 1) &
~(alignment - 1), with the complement taken in 64-bit size_t, so
~(alignment - 1) = 2^64 - 1 - (alignment - 1). -/
def align_up (offset alignment : Nat) : Nat :=
  (offset + alignment - 1) &&& (2 ^ 64 - 1 - (alignment - 1))

/-- is_aligned (Common.h lines 240-242). -/
def is_aligned (value alignment : Nat) : Bool := value % alignment == 0

/-! ## Properties of swap_bytes_generic -/

/-- Bytes n-1, n-2, ..., 0 of a value, as a list (byte n-1 first). -/
def revLeBytes (value : Nat) : Nat → List Nat
  | 0 => []
  | n + 1 => getByte value n :: revLeBytes value n

/-! ## Types.h: RiftObjectHeader and OffsetTableEntry layout

RiftObjectHeader is 16 bytes, 8-byte aligned, with fields at byte offsets
magic 0, schema_id 4, total_size 8, version_flags 12, each a little-endian
uint32.  OffsetTableEntry is 8 bytes, 4-byte aligned, fields offset at 0
and size at 4.  The layout is captured below by the byte offsets used in
the builder and accessor definitions. -/

/-- le32 v: the four bytes a uint32 occupies in the buffer (little-endian
host, so a store writes the low-order bytes in order). -/
def le32 (v : Nat) : List Nat := leBytes 4 v

/-! ## Builder.h: RiftBufferBuilder -/

/-- RiftBufferBuilder: m_buffer and m_current_offset move in lock step
(every writer appends or patches in place), so the state is the byte list
in [0, m_current_offset); GetSize is its length. -/
structure RiftBufferBuilder where
  m_buffer : List Nat
deriving DecidableEq, Repr

/-- WriteRaw (Builder.h lines 73-77): memcpy at the cursor, advance. -/
def WriteRaw (b : RiftBufferBuilder) (data : List Nat) : RiftBufferBuilder :=
  ⟨b.m_buffer ++ data⟩

/-- PadToAlignment (Builder.h lines 100-108): append
(alignment - offset % alignment) % alignment zero bytes. -/
def PadToAlignment (b : RiftBufferBuilder) (alignment : Nat) : RiftBufferBuilder :=
  ⟨b.m_buffer ++
    List.replicate ((alignment - b.m_buffer.length % alignment) % alignment) 0⟩

/-- WriteValue (Builder.h lines 81-87) for a fixed-size value of esz bytes:
endian-convert, then WriteRaw the value's bytes. -/
def WriteValue (b : RiftBufferBuilder) (esz value : Nat) : RiftBufferBuilder :=
  WriteRaw b (leBytes esz (to_little_endian value))

/-- BeginObject (Builder.h lines 116-129): pad to alignof(RiftObjectHeader)
= 8, record the object start, write a header holding magic, schema_id, a
zero total_size placeholder and version_flags; return the start offset. -/
def BeginObject (b : RiftBufferBuilder) (schema_id_val version_flags_val : Nat) :
    RiftBufferBuilder × Nat :=
  let b1 := PadToAlignment b 8
  (WriteRaw b1 (le32 (to_little_endian RIFT_MAGIC_NUMBER) ++
      le32 (to_little_endian schema_id_val) ++
      le32 (to_little_endian 0) ++
      le32 (to_little_endian version_flags_val)),
    b1.m_buffer.length)

/-- EndObject (Builder.h lines 133-147): total size is the cursor minus the
object start; memcpy the little-endian uint32 cast of it over the
total_size field at start + 8; return the total size.  The uint32 cast is
the low four bytes, which is what le32 stores. -/
def EndObject (b : RiftBufferBuilder) (object_start_offset : Nat) :
    RiftBufferBuilder × Nat :=
  let total := b.m_buffer.length - object_start_offset
  (⟨patchBytes b.m_buffer (object_start_offset + 8) (le32 total)⟩, total)

/-- EndObject together with its RIFT_ASSERT that the total size fits the
32-bit size field (Builder.h lines 137-138); none models the debug abort. -/
def EndObjectChecked (debug : Bool) (b : RiftBufferBuilder)
    (object_start_offset : Nat) : Option (RiftBufferBuilder × Nat) := do
  riftAssert debug
    (decide (b.m_buffer.length - object_start_offset ≤ 4294967295))
  some (EndObject b object_start_offset)

/-- ReserveOffsetTableEntry (Builder.h lines 156-163): pad to
alignof(OffsetTableEntry) = 4, append a zeroed 8-byte entry, return its
offset. -/
def ReserveOffsetTableEntry (b : RiftBufferBuilder) : RiftBufferBuilder × Nat :=
  let b1 := PadToAlignment b 4
  (WriteRaw b1 (List.replicate 8 0), b1.m_buffer.length)

/-- UpdateOffsetTableEntry (Builder.h lines 166-178), the memcpy that
rewrites a reserved entry with the little-endian offset and size. -/
def UpdateOffsetTableEntry (b : RiftBufferBuilder)
    (entry_offset data_offset data_size : Nat) : RiftBufferBuilder :=
  ⟨patchBytes b.m_buffer entry_offset
    (le32 (to_little_endian data_offset) ++ le32 (to_little_endian data_size))⟩

/-- UpdateOffsetTableEntry together with its two RIFT_ASSERTs (entry within
the written region, entry 4-byte aligned). -/
def UpdateOffsetTableEntryChecked (debug : Bool) (b : RiftBufferBuilder)
    (entry_offset data_offset data_size : Nat) : Option RiftBufferBuilder := do
  riftAssert debug (decide (entry_offset + 8 ≤ b.m_buffer.length))
  riftAssert debug (is_aligned entry_offset 4)
  some (UpdateOffsetTableEntry b entry_offset data_offset data_size)

/-- AddString (Builder.h lines 184-196): record the cursor as a uint32,
append the character bytes and one zero terminator, return the recorded
offset. -/
def AddString (b : RiftBufferBuilder) (str : List Nat) : RiftBufferBuilder × Nat :=
  let string_data_offset := b.m_buffer.length % 4294967296
  (WriteRaw (WriteRaw b str) [0], string_data_offset)

/-- AddArray (Builder.h lines 200-209) for elements of esz bytes with
natural alignment elem_align: pad to the element alignment, record the
cursor as a uint32, then WriteValue each element in order. -/
def AddArray (b : RiftBufferBuilder) (esz elem_align : Nat) (arr : List Nat) :
    RiftBufferBuilder × Nat :=
  let b1 := PadToAlignment b elem_align
  let array_data_offset := b1.m_buffer.length % 4294967296
  (arr.foldl (fun bb e => WriteValue bb esz e) b1, array_data_offset)

/-! ## Accessor.h: RiftBufferViewBase and friends -/

/-- RiftBufferViewBase: m_buffer_start modelled as the byte range it points
at (the object's bytes and whatever follows them in the enclosing
allocation). -/
structure RiftBufferViewBase where
  bytes : List Nat
deriving DecidableEq, Repr

/-- GetSchemaId (Accessor.h line 61): little-endian uint32 at offset 4. -/
def GetSchemaId (v : RiftBufferViewBase) : Nat :=
  from_little_endian (readLE v.bytes 4 4)

/-- GetTotalSize (Accessor.h line 62): little-endian uint32 at offset 8. -/
def GetTotalSize (v : RiftBufferViewBase) : Nat :=
  from_little_endian (readLE v.bytes 8 4)

/-- GetVersionFlags (Accessor.h line 63). -/
def GetVersionFlags (v : RiftBufferViewBase) : Nat :=
  from_little_endian (readLE v.bytes 12 4)

/-- RiftBufferViewBase constructor (Accessor.h lines 35-58): RIFT_ASSERT
the decoded magic equals RIFT_MAGIC_NUMBER and the decoded total_size is
at least sizeof(RiftObjectHeader) = 16.  The null-pointer RIFT_ASSERT has
no counterpart for a byte-list buffer, and the constructor contains no
alignment check ("We assume the header is always at the beginning and
aligned"). -/
def mkRiftBufferViewBase (debug : Bool) (buffer_start : List Nat) :
    Option RiftBufferViewBase := do
  riftAssert debug
    (decide (from_little_endian (readLE buffer_start 0 4) = RIFT_MAGIC_NUMBER))
  riftAssert debug (decide (16 ≤ from_little_endian (readLE buffer_start 8 4)))
  some ⟨buffer_start⟩

/-- GetPtrAtOffset (Accessor.h lines 67-72): RIFT_ASSERT
offset + size_needed <= GetTotalSize, then return the pointer (modelled as
the byte offset from the buffer start). -/
def GetPtrAtOffset (debug : Bool) (v : RiftBufferViewBase)
    (offset size_needed : Nat) : Option Nat := do
  riftAssert debug (decide (offset + size_needed ≤ GetTotalSize v))
  some offset

/-- GetFixedField (Accessor.h lines 82-94) for a POD of esz bytes with
alignment t_align: RIFT_ASSERT only that the address buffer_start + offset
is aligned (buffer base modelled at address 0), then read and
endian-convert the esz bytes at the offset.  There is no bounds check. -/
def GetFixedField (debug : Bool) (buffer_start : List Nat)
    (esz t_align offset : Nat) : Option Nat := do
  riftAssert debug (is_aligned offset t_align)
  some (from_little_endian (readLE buffer_start offset esz))

/-- RiftArrayView (Accessor.h lines 143-207): a pointer to the first
element, modelled as the byte range from the element data onward, plus the
element count. -/
structure RiftArrayView where
  data : List Nat
  m_element_count : Nat
deriving DecidableEq, Repr

/-- RiftArrayView::size (Accessor.h line 162). -/
def RiftArrayView.size (v : RiftArrayView) : Nat := v.m_element_count

/-- RiftArrayView::operator[] (Accessor.h lines 172-201) for a POD element
of esz bytes with alignment t_align: RIFT_ASSERT index < count, compute the
uint32 element offset index * esz, RIFT_ASSERT the element address is
aligned, then read through GetFixedField.  No check against the owning
object's total_size. -/
def arrayIndex (debug : Bool) (esz t_align : Nat) (v : RiftArrayView)
    (index : Nat) : Option Nat := do
  riftAssert debug (decide (index < v.m_element_count))
  let element_offset := index * esz % 4294967296
  riftAssert debug (is_aligned element_offset t_align)
  GetFixedField debug v.data esz t_align element_offset

/-- GetOffsetTableEntry (Accessor.h lines 215-239): RIFT_ASSERTs on the
table offset being positive, the index being below the declared entry
count, the table address being 4-byte aligned (object base modelled at
address 0) and the redundant scaled index comparison; returns the address
of the entry, modelled as its byte offset table_offset + index * 8 from
the object base.  No check against the object's total_size. -/
def GetOffsetTableEntry (debug : Bool) (offset_table_offset entry_index
    expected_num_entries : Nat) : Option Nat := do
  riftAssert debug (decide (0 < offset_table_offset))
  riftAssert debug (decide (entry_index < expected_num_entries))
  riftAssert debug (is_aligned offset_table_offset 4)
  riftAssert debug
    (decide (entry_index * 8 < expected_num_entries * 8))
  some (offset_table_offset + entry_index * 8)

/-! ## AddArray buffer shape -/

/-- Concatenated little-endian images of the array elements, the bytes the
WriteValue loop of AddArray appends. -/
def flatLeBytes (esz : Nat) : List Nat → List Nat
  | [] => []
  | v :: r => leBytes esz (to_little_endian v) ++ flatLeBytes esz r

/-! ## Build sequences (for the header round-trip) -/

/-- One builder call performed between BeginObject and EndObject: the write
operations RiftBufferBuilder offers (raw bytes, padding, a fixed value, a
string, an array, reserving an offset-table entry, patching one). -/
inductive BuildOp where
  | raw (bytes : List Nat)
  | pad (alignment : Nat)
  | value (esz v : Nat)
  | str (s : List Nat)
  | arr (esz elem_align : Nat) (elts : List Nat)
  | reserveEntry
  | updateEntry (entry_offset data_offset data_size : Nat)
deriving DecidableEq, Repr

/-- Apply one builder call to the builder state (return values of the
calls are not needed for the header round-trip). -/
def applyOp (b : RiftBufferBuilder) : BuildOp → RiftBufferBuilder
  | .raw bytes => WriteRaw b bytes
  | .pad alignment => PadToAlignment b alignment
  | .value esz v => WriteValue b esz v
  | .str s => (AddString b s).1
  | .arr esz elem_align elts => (AddArray b esz elem_align elts).1
  | .reserveEntry => (ReserveOffsetTableEntry b).1
  | .updateEntry eo d_o d_s => UpdateOffsetTableEntry b eo d_o d_s

/-- Run a sequence of builder calls. -/
def runOps (b : RiftBufferBuilder) (ops : List BuildOp) : RiftBufferBuilder :=
  ops.foldl applyOp b

/-- An operation leaves the 16-byte header region at the object start
alone: every operation except updateEntry only appends, and an updateEntry
qualifies when its 8-byte target range is disjoint from the header. -/
def headerDisjoint (object_start_offset : Nat) : BuildOp → Bool
  | .updateEntry eo _ _ =>
      decide (eo + 8 ≤ object_start_offset) ||
      decide (object_start_offset + 16 ≤ eo)
  | _ => true

/-- Bytes of the finished object: begin an object on an arbitrary builder,
run an arbitrary sequence of builder calls, end the object, and take the
buffer contents from the object's start offset on. -/
def builtObject (b0 : RiftBufferBuilder) (schema_id_val version_flags_val : Nat)
    (ops : List BuildOp) : List Nat :=
  (EndObject (runOps (BeginObject b0 schema_id_val version_flags_val).1 ops)
      (BeginObject b0 schema_id_val version_flags_val).2).1.m_buffer.drop
    (BeginObject b0 schema_id_val version_flags_val).2

/-- The buffer length at the EndObject call minus the object's start
offset: the object's total size. -/
def builtObjectSize (b0 : RiftBufferBuilder)
    (schema_id_val version_flags_val : Nat) (ops : List BuildOp) : Nat :=
  (runOps (BeginObject b0 schema_id_val version_flags_val).1 ops).m_buffer.length
    - (BeginObject b0 schema_id_val version_flags_val).2

theorem byteAt_nil (n : Nat) : byteAt [] n = 0 := by cases n <;> rfl

theorem byteAt_cons_succ (b : Nat) (l : List Nat) (n : Nat) :
    byteAt (b :: l) (n + 1) = byteAt l n := rfl

theorem byteAt_append_left {l : List Nat} (r : List Nat) {n : Nat}
    (h : n < l.length) : byteAt (l ++ r) n = byteAt l n := by
  induction l generalizing n with
  | nil => simp at h
  | cons b t ih =>
    cases n with
    | zero => rfl
    | succ m =>
      simp only [List.cons_append, byteAt_cons_succ]
      exact ih (by simpa using Nat.lt_of_succ_lt_succ h)

theorem byteAt_append_right (l r : List Nat) (n : Nat) :
    byteAt (l ++ r) (l.length + n) = byteAt r n := by
  induction l with
  | nil => simp [byteAt]
  | cons b t ih =>
    simpa [List.cons_append, Nat.succ_add, byteAt_cons_succ] using ih

theorem byteAt_append_right' (l r : List Nat) {n : Nat}
    (h : l.length ≤ n) : byteAt (l ++ r) n = byteAt r (n - l.length) := by
  have hrepr : n = l.length + (n - l.length) := by omega
  rw [hrepr, byteAt_append_right, Nat.add_sub_cancel_left]

theorem byteAt_replicate_zero (c n : Nat) :
    byteAt (List.replicate c 0) n = 0 := by
  induction c generalizing n with
  | zero => simp [byteAt]
  | succ m ih =>
    cases n with
    | zero => rfl
    | succ k => simpa [List.replicate, byteAt_cons_succ] using ih k

theorem length_setByte (l : List Nat) (n v : Nat) :
    (setByte l n v).length = l.length := by
  induction l generalizing n with
  | nil => rfl
  | cons b t ih =>
    cases n with
    | zero => rfl
    | succ m => simpa [setByte] using ih m

theorem byteAt_setByte_self {l : List Nat} {n : Nat} (v : Nat)
    (h : n < l.length) : byteAt (setByte l n v) n = v := by
  induction l generalizing n with
  | nil => simp at h
  | cons b t ih =>
    cases n with
    | zero => rfl
    | succ m =>
      simpa [setByte, byteAt_cons_succ] using
        ih (by simpa using Nat.lt_of_succ_lt_succ h)

theorem byteAt_setByte_ne (l : List Nat) {m n : Nat} (v : Nat)
    (h : m ≠ n) : byteAt (setByte l n v) m = byteAt l m := by
  induction l generalizing m n with
  | nil => rfl
  | cons b t ih =>
    cases n with
    | zero =>
      cases m with
      | zero => exact absurd rfl h
      | succ k => rfl
    | succ j =>
      cases m with
      | zero => rfl
      | succ k =>
        simpa [setByte, byteAt_cons_succ] using ih (fun hc => h (by omega))

theorem length_patchBytes (p : List Nat) (l : List Nat) (off : Nat) :
    (patchBytes l off p).length = l.length := by
  induction p generalizing l off with
  | nil => rfl
  | cons b bs ih =>
    rw [patchBytes, ih (setByte l off b) (off + 1), length_setByte]

theorem byteAt_patchBytes_out (p : List Nat) (l : List Nat) (off i : Nat)
    (h : i < off ∨ off + p.length ≤ i) :
    byteAt (patchBytes l off p) i = byteAt l i := by
  induction p generalizing l off with
  | nil => rfl
  | cons b bs ih =>
    have hne : i ≠ off := by
      rcases h with h | h
      · omega
      · simp only [List.length_cons] at h; omega
    have hnext : i < off + 1 ∨ (off + 1) + bs.length ≤ i := by
      rcases h with h | h
      · exact Or.inl (by omega)
      · simp only [List.length_cons] at h; exact Or.inr (by omega)
    calc byteAt (patchBytes (setByte l off b) (off + 1) bs) i
        = byteAt (setByte l off b) i := ih _ _ hnext
      _ = byteAt l i := byteAt_setByte_ne _ _ hne

theorem byteAt_patchBytes_in (p : List Nat) (l : List Nat) (off : Nat)
    (hfit : off + p.length ≤ l.length) {j : Nat} (hj : j < p.length) :
    byteAt (patchBytes l off p) (off + j) = byteAt p j := by
  induction p generalizing l off j with
  | nil => simp at hj
  | cons b bs ih =>
    cases j with
    | zero =>
      have hlen : off < l.length := by
        simp only [List.length_cons] at hfit; omega
      have hout : byteAt (patchBytes (setByte l off b) (off + 1) bs) (off + 0)
          = byteAt (setByte l off b) off := by
        exact byteAt_patchBytes_out bs _ _ _ (Or.inl (by omega))
      rw [patchBytes, hout, byteAt_setByte_self b hlen]; rfl
    | succ k =>
      have hfit' : (off + 1) + bs.length ≤ (setByte l off b).length := by
        rw [length_setByte]
        simp only [List.length_cons] at hfit; omega
      have hk : k < bs.length := by
        simp only [List.length_cons] at hj; omega
      have heq : off + (k + 1) = (off + 1) + k := by omega
      rw [patchBytes, heq, ih _ _ hfit' hk, byteAt_cons_succ]

theorem length_leBytes (w v : Nat) : (leBytes w v).length = w := by
  induction w generalizing v with
  | zero => rfl
  | succ n ih => simpa [leBytes] using ih (v / 256)

theorem byteAt_leBytes (w v : Nat) {n : Nat} (h : n < w) :
    byteAt (leBytes w v) n = v / 256 ^ n % 256 := by
  induction w generalizing v n with
  | zero => omega
  | succ m ih =>
    cases n with
    | zero => simp [leBytes, byteAt]
    | succ k =>
      have hk : k < m := by omega
      rw [leBytes, byteAt_cons_succ, ih (v / 256) hk]
      rw [Nat.div_div_eq_div_mul, pow_succ']

theorem byteAt_leBytes_lt (w v n : Nat) : byteAt (leBytes w v) n < 256 := by
  induction w generalizing v n with
  | zero => simp [leBytes, byteAt_nil]
  | succ m ih =>
    cases n with
    | zero =>
      rw [leBytes]
      exact Nat.mod_lt _ (by norm_num)
    | succ k =>
      rw [leBytes, byteAt_cons_succ]
      exact ih (v / 256) k

theorem readLE_congr {b1 b2 : List Nat} {o1 o2 : Nat} (w : Nat)
    (h : ∀ j, j < w → byteAt b1 (o1 + j) = byteAt b2 (o2 + j)) :
    readLE b1 o1 w = readLE b2 o2 w := by
  induction w generalizing o1 o2 with
  | zero => rfl
  | succ m ih =>
    rw [readLE, readLE]
    have h0 : byteAt b1 o1 = byteAt b2 o2 := by
      simpa using h 0 (by omega)
    have hrest : readLE b1 (o1 + 1) m = readLE b2 (o2 + 1) m := by
      refine ih fun j hj => ?_
      have h' := h (j + 1) (by omega)
      have e1 : o1 + 1 + j = o1 + (j + 1) := by omega
      have e2 : o2 + 1 + j = o2 + (j + 1) := by omega
      rw [e1, e2]; exact h'
    rw [h0, hrest]

theorem readLE_cons (b : Nat) (l : List Nat) (o w : Nat) :
    readLE (b :: l) (o + 1) w = readLE l o w := by
  refine readLE_congr w fun j _ => ?_
  have : o + 1 + j = (o + j) + 1 := by omega
  rw [this, byteAt_cons_succ]

theorem readLE_leBytes (w v : Nat) : readLE (leBytes w v) 0 w = v % 256 ^ w := by
  induction w generalizing v with
  | zero => simp [readLE, Nat.mod_one]
  | succ m ih =>
    rw [leBytes, readLE]
    have h1 : byteAt (v % 256 :: leBytes m (v / 256)) 0 = v % 256 := rfl
    have h2 : readLE (v % 256 :: leBytes m (v / 256)) (0 + 1) m
        = readLE (leBytes m (v / 256)) 0 m := readLE_cons _ _ 0 m
    rw [h1, h2, ih]
    rw [pow_succ', Nat.mod_mul]

theorem readLE_lt (buf : List Nat) (off w : Nat)
    (h : ∀ j, j < w → byteAt buf (off + j) < 256) :
    readLE buf off w < 256 ^ w := by
  induction w generalizing off with
  | zero => simp [readLE]
  | succ m ih =>
    rw [readLE, pow_succ']
    have h0 : byteAt buf off < 256 := by simpa using h 0 (by omega)
    have hr : readLE buf (off + 1) m < 256 ^ m := by
      refine ih (off + 1) fun j hj => ?_
      have h' := h (j + 1) (by omega)
      have e1 : off + 1 + j = off + (j + 1) := by omega
      rw [e1]; exact h'
    calc byteAt buf off + 256 * readLE buf (off + 1) m
        < 256 + 256 * readLE buf (off + 1) m := by omega
      _ = 256 * (readLE buf (off + 1) m + 1) := by ring
      _ ≤ 256 * 256 ^ m := by
          exact Nat.mul_le_mul_left 256 (by omega)

theorem byteAt_ge_length {l : List Nat} {n : Nat} (h : l.length ≤ n) :
    byteAt l n = 0 := by
  induction l generalizing n with
  | nil => exact byteAt_nil n
  | cons b t ih =>
    cases n with
    | zero => simp at h
    | succ m =>
      rw [byteAt_cons_succ]
      exact ih (by simpa using h)

theorem byteAt_drop (l : List Nat) (s n : Nat) :
    byteAt (List.drop s l) n = byteAt l (s + n) := by
  induction l generalizing s with
  | nil => simp [byteAt_nil]
  | cons b t ih =>
    cases s with
    | zero => rw [List.drop_zero, Nat.zero_add]
    | succ m =>
      have e : m + 1 + n = (m + n) + 1 := by omega
      rw [List.drop_succ_cons, ih m, e, byteAt_cons_succ]

/-! ## Bit-level helper lemmas (for swap_bytes_generic and align_up) -/

theorem testBit_of_two_pow_dvd {a : Nat} (k : Nat) (hd : 2 ^ k ∣ a) {j : Nat}
    (hj : j < k) : a.testBit j = false := by
  obtain ⟨m, hm⟩ := hd
  have ha : a = m <<< k := by rw [hm, Nat.shiftLeft_eq, Nat.mul_comm]
  have hge : ¬ (j ≥ k) := by omega
  rw [ha, Nat.testBit_shiftLeft]
  simp [hge]

theorem testBit_lt_two_pow' {x n j : Nat} (hx : x < 2 ^ n) (hj : n ≤ j) :
    x.testBit j = false := by
  apply Nat.testBit_lt_two_pow
  exact lt_of_lt_of_le hx (Nat.pow_le_pow_right (by norm_num) hj)

theorem testBit_add_low {m b : Nat} (k : Nat) (hb : b < 2 ^ k) {j : Nat}
    (hj : j < k) : (2 ^ k * m + b).testBit j = b.testBit j := by
  have hdvd : (2 ^ (j + 1) : Nat) ∣ 2 ^ k * m :=
    Dvd.dvd.mul_right (pow_dvd_pow 2 (by omega)) m
  have hz : (2 ^ k * m) % 2 ^ (j + 1) = 0 := Nat.dvd_iff_mod_eq_zero.mp hdvd
  have h1 : (2 ^ k * m + b) % 2 ^ (j + 1) = b % 2 ^ (j + 1) := by
    rw [Nat.add_mod, hz, Nat.zero_add, Nat.mod_mod_of_dvd b (dvd_refl _)]
  have t1 := Nat.testBit_mod_two_pow (2 ^ k * m + b) (j + 1) j
  have t2 := Nat.testBit_mod_two_pow b (j + 1) j
  rw [h1, t2] at t1
  have hd : (decide (j < j + 1)) = true := by simp
  rw [hd, Bool.true_and, Bool.true_and] at t1
  exact t1.symm

theorem testBit_add_high {m b : Nat} (k : Nat) (hb : b < 2 ^ k) {j : Nat}
    (hj : k ≤ j) : (2 ^ k * m + b).testBit j = (2 ^ k * m).testBit j := by
  obtain ⟨i, rfl⟩ : ∃ i, j = k + i := ⟨j - k, by omega⟩
  have hdiv : (2 ^ k * m + b) >>> k = m := by
    rw [Nat.shiftRight_eq_div_pow, Nat.mul_add_div (Nat.two_pow_pos k),
      Nat.div_eq_of_lt hb, Nat.add_zero]
  have hdiv2 : (2 ^ k * m) >>> k = m := by
    rw [Nat.shiftRight_eq_div_pow, Nat.mul_div_cancel_left m (Nat.two_pow_pos k)]
  have t1 := Nat.testBit_shiftRight (i := k) (j := i) (2 ^ k * m + b)
  have t2 := Nat.testBit_shiftRight (i := k) (j := i) (2 ^ k * m)
  rw [hdiv] at t1
  rw [hdiv2] at t2
  rw [← t1, ← t2]

theorem lor_eq_add_of_disjoint {a b : Nat} (k : Nat) (ha : 2 ^ k ∣ a)
    (hb : b < 2 ^ k) : a ||| b = a + b := by
  obtain ⟨m, rfl⟩ := ha
  apply Nat.eq_of_testBit_eq
  intro j
  rw [Nat.testBit_lor]
  by_cases hj : j < k
  · rw [testBit_add_low k hb hj, testBit_of_two_pow_dvd k ⟨m, rfl⟩ hj,
      Bool.false_or]
  · rw [testBit_add_high k hb (by omega),
      testBit_lt_two_pow' hb (by omega), Bool.or_false]

theorem land_mask_high {x : Nat} (k m : Nat) (hx : x < 2 ^ (k + m)) :
    x &&& (2 ^ (k + m) - 2 ^ k) = 2 ^ k * (x / 2 ^ k) := by
  have hmask : (2 ^ m - 1) <<< k = 2 ^ (k + m) - 2 ^ k := by
    rw [Nat.shiftLeft_eq, Nat.sub_mul, one_mul, ← pow_add, Nat.add_comm m k]
  have hr : 2 ^ k * (x / 2 ^ k) = (x >>> k) <<< k := by
    rw [Nat.shiftRight_eq_div_pow, Nat.shiftLeft_eq, Nat.mul_comm]
  apply Nat.eq_of_testBit_eq
  intro j
  rw [← hmask, hr, Nat.testBit_land, Nat.testBit_shiftLeft,
    Nat.testBit_two_pow_sub_one, Nat.testBit_shiftLeft, Nat.testBit_shiftRight]
  by_cases h1 : j < k
  · have hge : ¬ (j ≥ k) := by omega
    simp [hge]
  · by_cases h2 : j < k + m
    · have hge : j ≥ k := by omega
      have hlt : j - k < m := by omega
      have hjk : k + (j - k) = j := by omega
      simp [hge, hlt, hjk]
    · have hf : x.testBit j = false := testBit_lt_two_pow' hx (by omega)
      have hlt : ¬ (j - k < m) := by omega
      have hjk : k + (j - k) = j := by omega
      simp [hf, hlt, hjk]

theorem length_revLeBytes (value n : Nat) : (revLeBytes value n).length = n := by
  induction n with
  | zero => rfl
  | succ m ih => simpa [revLeBytes] using ih

theorem getByte_lt (value i : Nat) : getByte value i < 256 :=
  lt_of_le_of_lt Nat.and_le_right (by norm_num)

theorem land_255 (x : Nat) : x &&& 255 = x % 256 := by
  have h255 : (255 : Nat) = 2 ^ 8 - 1 := by norm_num
  have h256 : (256 : Nat) = 2 ^ 8 := by norm_num
  rw [h255, h256]
  apply Nat.eq_of_testBit_eq
  intro j
  rw [Nat.testBit_land, Nat.testBit_two_pow_sub_one, Nat.testBit_mod_two_pow,
    Bool.and_comm]

theorem getByte_eq (value i : Nat) : getByte value i = value / 256 ^ i % 256 := by
  have hp : (2 : Nat) ^ (i * 8) = 256 ^ i := by
    rw [Nat.mul_comm, pow_mul]
    norm_num
  rw [getByte, land_255, Nat.shiftRight_eq_div_pow, hp]

theorem byteAt_revLeBytes (value : Nat) {n i : Nat} (h : i < n) :
    byteAt (revLeBytes value n) i = getByte value (n - 1 - i) := by
  induction n generalizing i with
  | zero => omega
  | succ m ih =>
    cases i with
    | zero => simp [revLeBytes, byteAt]
    | succ j =>
      rw [revLeBytes, byteAt_cons_succ, ih (by omega)]
      congr 1
      omega

theorem byteAt_revLeBytes_lt (value n i : Nat) :
    byteAt (revLeBytes value n) i < 256 := by
  by_cases h : i < n
  · rw [byteAt_revLeBytes value h]; exact getByte_lt _ _
  · rw [byteAt_ge_length (by rw [length_revLeBytes]; omega)]; norm_num

theorem swapBytesAux_eq (w value : Nat) {n : Nat} (hn : n ≤ w) :
    swapBytesAux w value n
      = readLE (revLeBytes value n) 0 n * 2 ^ ((w - n) * 8) := by
  induction n with
  | zero => simp [swapBytesAux, readLE]
  | succ m ih =>
    have hw : w - m = (w - 1 - m) + 1 := by omega
    have hpow : 2 ^ ((w - m) * 8) = 2 ^ ((w - 1 - m) * 8) * 256 := by
      rw [hw, Nat.add_mul, one_mul, pow_add]
      norm_num
    have hgb : (value >>> (m * 8)) &&& 255 = getByte value m := rfl
    have hlor : readLE (revLeBytes value m) 0 m * 2 ^ ((w - m) * 8) |||
          (getByte value m <<< ((w - 1 - m) * 8))
        = readLE (revLeBytes value m) 0 m * 2 ^ ((w - m) * 8) +
          getByte value m <<< ((w - 1 - m) * 8) := by
      apply lor_eq_add_of_disjoint ((w - 1 - m) * 8 + 8)
      · refine ⟨readLE (revLeBytes value m) 0 m, ?_⟩
        rw [hpow, pow_add]
        ring
      · rw [Nat.shiftLeft_eq, pow_add]
        have hb := getByte_lt value m
        calc getByte value m * 2 ^ ((w - 1 - m) * 8)
            < 256 * 2 ^ ((w - 1 - m) * 8) :=
              (Nat.mul_lt_mul_right (Nat.two_pow_pos _)).mpr hb
          _ = 2 ^ ((w - 1 - m) * 8) * 2 ^ 8 := by ring
    have hF1 : readLE (revLeBytes value (m + 1)) 0 (m + 1)
        = getByte value m + 256 * readLE (revLeBytes value m) 0 m := by
      rw [revLeBytes, readLE, readLE_cons]
      rfl
    rw [swapBytesAux, ih (by omega), hgb, hlor, hF1, Nat.shiftLeft_eq]
    have he : w - (m + 1) = w - 1 - m := by omega
    rw [he, hpow]
    ring

theorem swapBytesGeneric_eq (w value : Nat) :
    swapBytesGeneric w value = readLE (revLeBytes value w) 0 w := by
  rw [swapBytesGeneric, swapBytesAux_eq w value (Nat.le_refl w), Nat.sub_self]
  simp

theorem readLE_div_mod (buf : List Nat) (hl : ∀ j, byteAt buf j < 256) :
    ∀ w off i, i < w → readLE buf off w / 256 ^ i % 256 = byteAt buf (off + i) := by
  intro w
  induction w with
  | zero => omega
  | succ m ih =>
    intro off i hi
    cases i with
    | zero =>
      rw [readLE, pow_zero, Nat.div_one, Nat.add_mul_mod_self_left,
        Nat.mod_eq_of_lt (hl off), Nat.add_zero]
    | succ j =>
      have hstep : readLE buf off (m + 1) / 256 = readLE buf (off + 1) m := by
        rw [readLE, Nat.add_mul_div_left _ _ (by norm_num : (0:Nat) < 256),
          Nat.div_eq_of_lt (hl off), Nat.zero_add]
      rw [pow_succ', ← Nat.div_div_eq_div_mul, hstep, ih (off + 1) j (by omega)]
      congr 1
      omega

theorem getByte_swapBytesGeneric (w value : Nat) {i : Nat} (hi : i < w) :
    getByte (swapBytesGeneric w value) i = getByte value (w - 1 - i) := by
  rw [swapBytesGeneric_eq, getByte_eq]
  have hlen : i < (revLeBytes value w).length := by rw [length_revLeBytes]; omega
  have h := readLE_div_mod (revLeBytes value w)
    (fun j => byteAt_revLeBytes_lt value w j) w 0 i hi
  rw [h, Nat.zero_add, byteAt_revLeBytes value hi]

theorem swapBytesGeneric_lt (w value : Nat) : swapBytesGeneric w value < 256 ^ w := by
  rw [swapBytesGeneric_eq]
  exact readLE_lt _ 0 w fun j _ => byteAt_revLeBytes_lt value w (0 + j)

theorem swapBytesGeneric_involutive (w value : Nat) (hv : value < 256 ^ w) :
    swapBytesGeneric w (swapBytesGeneric w value) = value := by
  conv_lhs => rw [swapBytesGeneric_eq]
  have hcongr : readLE (revLeBytes (swapBytesGeneric w value) w) 0 w
      = readLE (leBytes w value) 0 w := by
    refine readLE_congr w fun j hj => ?_
    simp only [Nat.zero_add]
    rw [byteAt_revLeBytes _ hj, getByte_swapBytesGeneric w value (by omega)]
    have he : w - 1 - (w - 1 - j) = j := by omega
    rw [he, byteAt_leBytes w value hj, getByte_eq]
  rw [hcongr, readLE_leBytes, Nat.mod_eq_of_lt hv]

/-! ## Builder buffer-shape lemmas -/

theorem pad_amount_mod (len a : Nat) (ha : 0 < a) :
    (len + (a - len % a) % a) % a = 0 := by
  have h := Nat.div_add_mod len a
  have hmod : len % a < a := Nat.mod_lt _ ha
  rcases Nat.eq_zero_or_pos (len % a) with h0 | h0
  · rw [h0, Nat.sub_zero, Nat.mod_self, Nat.add_zero, h0]
  · have hlt : a - len % a < a := by omega
    rw [Nat.mod_eq_of_lt hlt]
    have hexp : a * (len / a + 1) = a * (len / a) + a := by ring
    have heq : len + (a - len % a) = a * (len / a + 1) := by omega
    rw [heq, Nat.mul_mod_right]

theorem length_PadToAlignment (b : RiftBufferBuilder) (alignment : Nat) :
    (PadToAlignment b alignment).m_buffer.length
      = b.m_buffer.length +
        (alignment - b.m_buffer.length % alignment) % alignment := by
  simp [PadToAlignment]

theorem PadToAlignment_mod (b : RiftBufferBuilder) {alignment : Nat}
    (ha : 0 < alignment) :
    (PadToAlignment b alignment).m_buffer.length % alignment = 0 := by
  rw [length_PadToAlignment]
  exact pad_amount_mod _ _ ha

theorem PadToAlignment_le (b : RiftBufferBuilder) (alignment : Nat) :
    b.m_buffer.length ≤ (PadToAlignment b alignment).m_buffer.length := by
  rw [length_PadToAlignment]; omega

theorem PadToAlignment_lt (b : RiftBufferBuilder) {alignment : Nat}
    (ha : 0 < alignment) :
    (PadToAlignment b alignment).m_buffer.length
      < b.m_buffer.length + alignment := by
  rw [length_PadToAlignment]
  have := Nat.mod_lt (alignment - b.m_buffer.length % alignment) ha
  omega

theorem PadToAlignment_frame (b : RiftBufferBuilder) (alignment : Nat) {i : Nat}
    (hi : i < b.m_buffer.length) :
    byteAt (PadToAlignment b alignment).m_buffer i = byteAt b.m_buffer i :=
  byteAt_append_left _ hi

theorem PadToAlignment_zeros (b : RiftBufferBuilder) (alignment : Nat) {i : Nat}
    (hi : b.m_buffer.length ≤ i) :
    byteAt (PadToAlignment b alignment).m_buffer i = 0 := by
  rw [PadToAlignment, byteAt_append_right' _ _ hi, byteAt_replicate_zero]

/-- C10: PadToAlignment advances the length to the least multiple of the
alignment at or above the old length, zero-fills exactly the inserted
bytes, changes no previously written byte, and is the identity when the
old length is already aligned. -/
theorem C10_pad_determinism (b : RiftBufferBuilder) (k alignment : Nat)
    (ha : alignment = 2 ^ k) :
    b.m_buffer.length ≤ (PadToAlignment b alignment).m_buffer.length ∧
    (PadToAlignment b alignment).m_buffer.length % alignment = 0 ∧
    (∀ m, b.m_buffer.length ≤ m → alignment ∣ m →
      (PadToAlignment b alignment).m_buffer.length ≤ m) ∧
    (∀ i, i < b.m_buffer.length →
      byteAt (PadToAlignment b alignment).m_buffer i = byteAt b.m_buffer i) ∧
    (∀ i, b.m_buffer.length ≤ i →
      byteAt (PadToAlignment b alignment).m_buffer i = 0) ∧
    (b.m_buffer.length % alignment = 0 → PadToAlignment b alignment = b) := by
  have hpos : 0 < alignment := ha ▸ Nat.two_pow_pos k
  refine ⟨PadToAlignment_le b alignment, PadToAlignment_mod b hpos, ?_,
    fun i hi => PadToAlignment_frame b alignment hi,
    fun i hi => PadToAlignment_zeros b alignment hi, ?_⟩
  · intro m hm hdvd
    by_contra hcon
    have hlt := PadToAlignment_lt b hpos
    have hdvd2 : alignment ∣ (PadToAlignment b alignment).m_buffer.length :=
      Nat.dvd_iff_mod_eq_zero.mpr (PadToAlignment_mod b hpos)
    have hdiff : alignment ∣ ((PadToAlignment b alignment).m_buffer.length - m) :=
      Nat.dvd_sub' hdvd2 hdvd
    have hz := Nat.eq_zero_of_dvd_of_lt hdiff (by omega)
    omega
  · intro h0
    have hz : (alignment - b.m_buffer.length % alignment) % alignment = 0 := by
      rw [h0, Nat.sub_zero, Nat.mod_self]
    rw [PadToAlignment, hz]
    simp

/-- Witness for C10 at a concrete builder state. -/
theorem C10_pad_determinism_witness :
    (PadToAlignment ⟨[1, 2, 3]⟩ 4).m_buffer.length % 4 = 0 :=
  (C10_pad_determinism ⟨[1, 2, 3]⟩ 2 4 (by norm_num)).2.1

/-- C7: AddString returns the pre-call length as the data offset, appends
exactly the string bytes then one zero terminator, and leaves every
earlier byte unchanged. -/
theorem C7_add_string (b : RiftBufferBuilder) (str : List Nat)
    (hlen : b.m_buffer.length < 4294967296) :
    (AddString b str).2 = b.m_buffer.length ∧
    (∀ j, j < str.length →
      byteAt (AddString b str).1.m_buffer (b.m_buffer.length + j)
        = byteAt str j) ∧
    byteAt (AddString b str).1.m_buffer (b.m_buffer.length + str.length) = 0 ∧
    (AddString b str).1.m_buffer.length = b.m_buffer.length + str.length + 1 ∧
    (∀ i, i < b.m_buffer.length →
      byteAt (AddString b str).1.m_buffer i = byteAt b.m_buffer i) := by
  refine ⟨Nat.mod_eq_of_lt hlen, ?_, ?_, ?_, ?_⟩
  · intro j hj
    show byteAt ((b.m_buffer ++ str) ++ [0]) (b.m_buffer.length + j) = byteAt str j
    rw [byteAt_append_left _ (by simp; omega), byteAt_append_right]
  · show byteAt ((b.m_buffer ++ str) ++ [0]) (b.m_buffer.length + str.length) = 0
    have hl : (b.m_buffer ++ str).length = b.m_buffer.length + str.length := by simp
    have h := byteAt_append_right (b.m_buffer ++ str) [0] 0
    rw [hl, Nat.add_zero] at h
    rw [h]
    rfl
  · show ((b.m_buffer ++ str) ++ [0]).length = b.m_buffer.length + str.length + 1
    simp
    omega
  · intro i hi
    show byteAt ((b.m_buffer ++ str) ++ [0]) i = byteAt b.m_buffer i
    rw [byteAt_append_left _ (by simp; omega), byteAt_append_left _ hi]

/-- Witness for C7 at a concrete builder state and string. -/
theorem C7_add_string_witness :
    (AddString ⟨[9, 9]⟩ [104, 105]).2 = 2 :=
  (C7_add_string ⟨[9, 9]⟩ [104, 105] (by decide)).1

/-- C8: for a power-of-two alignment that fits in size_t and an offset with
offset + alignment - 1 not overflowing size_t, align_up returns the least
multiple of the alignment at or above the offset (so it is the identity on
aligned offsets), and is_aligned decides divisibility by the alignment. -/
theorem C8_alignment_utilities (k offset alignment : Nat) (ha : alignment = 2 ^ k)
    (hk : k < 64) (hov : offset + alignment - 1 < 2 ^ 64) :
    (offset ≤ align_up offset alignment ∧
     alignment ∣ align_up offset alignment ∧
     (∀ m, offset ≤ m → alignment ∣ m → align_up offset alignment ≤ m)) ∧
    (alignment ∣ offset → align_up offset alignment = offset) ∧
    (∀ v, is_aligned v alignment = true ↔ alignment ∣ v) := by
  subst ha
  have hone : (1 : Nat) ≤ 2 ^ k := Nat.one_le_two_pow
  have hexp : k + (64 - k) = 64 := by omega
  have hmask : 2 ^ 64 - 1 - (2 ^ k - 1) = 2 ^ (k + (64 - k)) - 2 ^ k := by
    rw [hexp]; omega
  have hx : offset + 2 ^ k - 1 < 2 ^ (k + (64 - k)) := by rw [hexp]; exact hov
  have hval : align_up offset (2 ^ k)
      = 2 ^ k * ((offset + 2 ^ k - 1) / 2 ^ k) := by
    rw [align_up, hmask, land_mask_high k (64 - k) hx]
  have hsum := Nat.div_add_mod (offset + 2 ^ k - 1) (2 ^ k)
  have hmlt : (offset + 2 ^ k - 1) % 2 ^ k < 2 ^ k :=
    Nat.mod_lt _ (Nat.two_pow_pos k)
  have hge : offset ≤ align_up offset (2 ^ k) := by rw [hval]; omega
  have hdvd : 2 ^ k ∣ align_up offset (2 ^ k) := by
    rw [hval]; exact Dvd.intro _ rfl
  have hlt : align_up offset (2 ^ k) < offset + 2 ^ k := by rw [hval]; omega
  refine ⟨⟨hge, hdvd, ?_⟩, ?_, ?_⟩
  · intro m hm hmdvd
    by_contra hcon
    have hdiff : 2 ^ k ∣ (align_up offset (2 ^ k) - m) := Nat.dvd_sub' hdvd hmdvd
    have hz := Nat.eq_zero_of_dvd_of_lt hdiff (by omega)
    omega
  · rintro ⟨t, rfl⟩
    rw [hval]
    have hrepr : 2 ^ k * t + 2 ^ k - 1 = 2 ^ k * t + (2 ^ k - 1) := by omega
    rw [hrepr, Nat.mul_add_div (Nat.two_pow_pos k),
      Nat.div_eq_of_lt (by omega), Nat.add_zero]
  · intro v
    rw [is_aligned, beq_iff_eq, Nat.dvd_iff_mod_eq_zero]

/-- Witness for C8 at concrete inputs. -/
theorem C8_alignment_utilities_witness : 5 ≤ align_up 5 8 :=
  ((C8_alignment_utilities 3 5 8 (by norm_num) (by norm_num) (by decide)).1).1

/-- C5: on the little-endian host the integral conversions are the
identity (and the float and double overloads are the identity on bit
patterns), so the round trip is the identity; and swap_bytes_generic
reverses byte order (byte i of the output is byte w-1-i of the input), is
its own inverse on w-byte values, and maps 0x01020304 to 0x04030201, whose
stored bytes are 04 03 02 01 - the little-endian wire image of
0x01020304. -/
theorem C5_endian_conversion :
    (∀ x : Nat, to_little_endian x = x ∧ from_little_endian x = x ∧
      from_little_endian (to_little_endian x) = x) ∧
    (∀ w value i, i < w →
      getByte (swapBytesGeneric w value) i = getByte value (w - 1 - i)) ∧
    (∀ w value, value < 256 ^ w →
      swapBytesGeneric w (swapBytesGeneric w value) = value) ∧
    swapBytesGeneric 4 0x01020304 = 0x04030201 ∧
    le32 0x01020304 = [0x04, 0x03, 0x02, 0x01] := by
  refine ⟨fun x => ⟨rfl, rfl, rfl⟩, ?_, ?_, by decide, by decide⟩
  · intro w value i hi
    exact getByte_swapBytesGeneric w value hi
  · intro w value hv
    exact swapBytesGeneric_involutive w value hv

/-- Witness for C5 at a concrete width and value. -/
theorem C5_endian_conversion_witness :
    getByte (swapBytesGeneric 4 0x01020304) 0 = getByte 0x01020304 3 ∧
    swapBytesGeneric 4 (swapBytesGeneric 4 0x01020304) = 0x01020304 :=
  ⟨C5_endian_conversion.2.1 4 0x01020304 0 (by decide),
   C5_endian_conversion.2.2.1 4 0x01020304 (by decide)⟩

/-- C3 counterexample: in a release build (RIFT_SERIALIZER_DEBUG not
defined, the default) every RIFT_ASSERT in the view constructor compiles
to nothing, so construction over a 16-byte buffer whose first four bytes
decode to 0xDEADBEEF - not the magic constant - succeeds instead of
failing; and in no build is a caller-recoverable error produced.  This
refutes the claim that construction fails with a recoverable
format-violation error whenever the magic differs. -/
theorem C3_counterexample :
    mkRiftBufferViewBase false
        (le32 0xDEADBEEF ++ le32 0 ++ le32 16 ++ le32 0)
      = some ⟨le32 0xDEADBEEF ++ le32 0 ++ le32 16 ++ le32 0⟩ ∧
    from_little_endian
        (readLE (le32 0xDEADBEEF ++ le32 0 ++ le32 16 ++ le32 0) 0 4)
      ≠ RIFT_MAGIC_NUMBER := by decide

/-- C3 amended: view construction validates only under
RIFT_SERIALIZER_DEBUG, where a RIFT_ASSERT abort (not a recoverable error)
fires exactly when the decoded magic differs from RIFT_MAGIC_NUMBER or the
decoded total_size is below the 16-byte header size (header misalignment
is never checked); in release builds construction performs no validation
and always succeeds. -/
theorem C3_view_construction (buffer_start : List Nat) :
    mkRiftBufferViewBase false buffer_start = some ⟨buffer_start⟩ ∧
    (mkRiftBufferViewBase true buffer_start = some ⟨buffer_start⟩ ↔
      (from_little_endian (readLE buffer_start 0 4) = RIFT_MAGIC_NUMBER ∧
       16 ≤ from_little_endian (readLE buffer_start 8 4))) := by
  constructor
  · rfl
  · by_cases h1 : from_little_endian (readLE buffer_start 0 4) = RIFT_MAGIC_NUMBER <;>
      by_cases h2 : 16 ≤ from_little_endian (readLE buffer_start 8 4) <;>
      simp [mkRiftBufferViewBase, riftAssert, h1, h2]

/-- C4 counterexample: begin an object (start offset 0), then perform one
legal write - an offset-table patch at entry offset 0, which passes both of
UpdateOffsetTableEntry's own debug assertions - and call EndObject.
Afterwards the magic field holds 0xDEADBEEF and the schema_id field holds
0, so EndObject back-patched neither magic nor schema_id (nor
version_flags): it writes only total_size.  This refutes the claim that
EndObject back-patches magic, schema_id, total_size and version_flags. -/
theorem C4_counterexample :
    UpdateOffsetTableEntryChecked true (BeginObject ⟨[]⟩ 7 1).1 0 0xDEADBEEF 0
      = some (UpdateOffsetTableEntry (BeginObject ⟨[]⟩ 7 1).1 0 0xDEADBEEF 0) ∧
    from_little_endian (readLE
        (EndObject (UpdateOffsetTableEntry (BeginObject ⟨[]⟩ 7 1).1
          0 0xDEADBEEF 0) 0).1.m_buffer 0 4) ≠ RIFT_MAGIC_NUMBER ∧
    from_little_endian (readLE
        (EndObject (UpdateOffsetTableEntry (BeginObject ⟨[]⟩ 7 1).1
          0 0xDEADBEEF 0) 0).1.m_buffer 4 4) ≠ 7 := by decide

/-- C4 amended: for a builder state containing the 16-byte header region at
the object start, EndObject computes total_size = length - start, in debug
builds asserts (aborts, rather than recoverably failing) exactly when that
exceeds the uint32 range while release builds never fail and truncate, and
back-patches only the 4-byte total_size field at start + 8 (as the
little-endian uint32 cast), leaving the length and every byte outside
[start+8, start+12) - including magic, schema_id and version_flags, which
BeginObject wrote up front - unchanged. -/
theorem C4_end_object (b : RiftBufferBuilder) (object_start_offset : Nat)
    (hstart : object_start_offset + 16 ≤ b.m_buffer.length) :
    (EndObjectChecked true b object_start_offset = none ↔
      4294967295 < b.m_buffer.length - object_start_offset) ∧
    EndObjectChecked false b object_start_offset
      = some (EndObject b object_start_offset) ∧
    (EndObject b object_start_offset).2
      = b.m_buffer.length - object_start_offset ∧
    (EndObject b object_start_offset).1.m_buffer.length = b.m_buffer.length ∧
    readLE (EndObject b object_start_offset).1.m_buffer
        (object_start_offset + 8) 4
      = (b.m_buffer.length - object_start_offset) % 4294967296 ∧
    (∀ i, i < object_start_offset + 8 ∨ object_start_offset + 12 ≤ i →
      byteAt (EndObject b object_start_offset).1.m_buffer i
        = byteAt b.m_buffer i) := by
  have hlen4 : (le32 (b.m_buffer.length - object_start_offset)).length = 4 := by
    simp [le32, length_leBytes]
  refine ⟨?_, rfl, rfl, ?_, ?_, ?_⟩
  · by_cases h : b.m_buffer.length - object_start_offset ≤ 4294967295 <;>
      simp [EndObjectChecked, riftAssert, h] <;> omega
  · show (patchBytes b.m_buffer (object_start_offset + 8)
      (le32 (b.m_buffer.length - object_start_offset))).length = _
    rw [length_patchBytes]
  · show readLE (patchBytes b.m_buffer (object_start_offset + 8)
      (le32 (b.m_buffer.length - object_start_offset))) (object_start_offset + 8) 4
      = _
    have hfit : (object_start_offset + 8) +
        (le32 (b.m_buffer.length - object_start_offset)).length
        ≤ b.m_buffer.length := by rw [hlen4]; omega
    have hcongr : readLE (patchBytes b.m_buffer (object_start_offset + 8)
        (le32 (b.m_buffer.length - object_start_offset)))
        (object_start_offset + 8) 4
        = readLE (leBytes 4 (b.m_buffer.length - object_start_offset)) 0 4 := by
      refine readLE_congr 4 fun j hj => ?_
      rw [byteAt_patchBytes_in _ _ _ hfit (by rw [hlen4]; omega), Nat.zero_add]
      rfl
    rw [hcongr, readLE_leBytes]
    norm_num
  · intro i hi
    show byteAt (patchBytes b.m_buffer (object_start_offset + 8)
      (le32 (b.m_buffer.length - object_start_offset))) i = _
    refine byteAt_patchBytes_out _ _ _ _ ?_
    rw [hlen4]
    omega

/-- Witness for C4's amended theorem at a concrete builder state. -/
theorem C4_end_object_witness : (EndObject ⟨List.replicate 20 0⟩ 0).2 = 20 :=
  (C4_end_object ⟨List.replicate 20 0⟩ 0 (by decide)).2.2.1

/-- C2, evaluated at the failing input: a well-formed 16-byte object
(total_size = 16) followed by one adjacent byte 0xAB.  GetPtrAtOffset,
the one primitive with a bounds assertion, rejects offset 16 in a debug
build (and lets it through in release, where the assertion compiles out);
but GetFixedField at offset 16, an array view whose element range starts
at the object's end, and an offset-table entry at offset 16 all succeed
and hand back the byte outside the object, because none of those
accessors checks against total_size - contradicting the claim (and the
accessors' own header comment) that every access is validated against
[0, total_size). -/
theorem C2_bounds_enforcement_gap :
    GetTotalSize ⟨le32 RIFT_MAGIC_NUMBER ++ le32 7 ++ le32 16 ++ le32 0 ++ [0xAB]⟩
      = 16 ∧
    GetPtrAtOffset true
        ⟨le32 RIFT_MAGIC_NUMBER ++ le32 7 ++ le32 16 ++ le32 0 ++ [0xAB]⟩ 16 1
      = none ∧
    GetPtrAtOffset false
        ⟨le32 RIFT_MAGIC_NUMBER ++ le32 7 ++ le32 16 ++ le32 0 ++ [0xAB]⟩ 16 1
      = some 16 ∧
    GetFixedField true
        (le32 RIFT_MAGIC_NUMBER ++ le32 7 ++ le32 16 ++ le32 0 ++ [0xAB]) 1 1 16
      = some 0xAB ∧
    arrayIndex true 1 1 ⟨[0xAB], 5⟩ 0 = some 0xAB ∧
    GetOffsetTableEntry true 16 0 1 = some 16 := by decide

/-- C9: ReserveOffsetTableEntry appends one zeroed 8-byte entry at a
4-byte-aligned offset at or past the old length and returns that offset,
leaving earlier bytes unchanged; UpdateOffsetTableEntry then rewrites
exactly those 8 bytes with the little-endian encodings of the data offset
and size, changing no other byte and not moving the write cursor. -/
theorem C9_reserve_patch_frame (b b2 : RiftBufferBuilder)
    (data_offset data_size : Nat)
    (hdo : data_offset < 4294967296) (hds : data_size < 4294967296) :
    (ReserveOffsetTableEntry b).2 % 4 = 0 ∧
    b.m_buffer.length ≤ (ReserveOffsetTableEntry b).2 ∧
    (ReserveOffsetTableEntry b).1.m_buffer.length
      = (ReserveOffsetTableEntry b).2 + 8 ∧
    (∀ j, j < 8 →
      byteAt (ReserveOffsetTableEntry b).1.m_buffer
        ((ReserveOffsetTableEntry b).2 + j) = 0) ∧
    (∀ i, i < b.m_buffer.length →
      byteAt (ReserveOffsetTableEntry b).1.m_buffer i = byteAt b.m_buffer i) ∧
    (∀ entry_offset, entry_offset + 8 ≤ b2.m_buffer.length →
      (UpdateOffsetTableEntry b2 entry_offset data_offset
          data_size).m_buffer.length = b2.m_buffer.length ∧
      readLE (UpdateOffsetTableEntry b2 entry_offset data_offset
          data_size).m_buffer entry_offset 4 = data_offset ∧
      readLE (UpdateOffsetTableEntry b2 entry_offset data_offset
          data_size).m_buffer (entry_offset + 4) 4 = data_size ∧
      (∀ i, i < entry_offset ∨ entry_offset + 8 ≤ i →
        byteAt (UpdateOffsetTableEntry b2 entry_offset data_offset
          data_size).m_buffer i = byteAt b2.m_buffer i)) := by
  have hp8 : (le32 (to_little_endian data_offset) ++
      le32 (to_little_endian data_size)).length = 8 := by
    simp [le32, length_leBytes]
  refine ⟨PadToAlignment_mod b (by norm_num), PadToAlignment_le b 4, ?_, ?_, ?_, ?_⟩
  · show ((PadToAlignment b 4).m_buffer ++ List.replicate 8 0).length = _
    simp
    rfl
  · intro j hj
    show byteAt ((PadToAlignment b 4).m_buffer ++ List.replicate 8 0)
      ((PadToAlignment b 4).m_buffer.length + j) = 0
    rw [byteAt_append_right, byteAt_replicate_zero]
  · intro i hi
    show byteAt ((PadToAlignment b 4).m_buffer ++ List.replicate 8 0) i = _
    rw [byteAt_append_left _ (lt_of_lt_of_le hi (PadToAlignment_le b 4)),
      PadToAlignment_frame b 4 hi]
  · intro entry_offset hfit
    have hfit' : entry_offset + (le32 (to_little_endian data_offset) ++
        le32 (to_little_endian data_size)).length ≤ b2.m_buffer.length := by
      rw [hp8]; omega
    refine ⟨by rw [show (UpdateOffsetTableEntry b2 entry_offset data_offset
        data_size).m_buffer = patchBytes b2.m_buffer entry_offset _ from rfl,
        length_patchBytes], ?_, ?_, ?_⟩
    · have hcongr : readLE (UpdateOffsetTableEntry b2 entry_offset data_offset
          data_size).m_buffer entry_offset 4
          = readLE (leBytes 4 data_offset) 0 4 := by
        refine readLE_congr 4 fun j hj => ?_
        show byteAt (patchBytes b2.m_buffer entry_offset _) (entry_offset + j) = _
        rw [byteAt_patchBytes_in _ _ _ hfit' (by rw [hp8]; omega), Nat.zero_add,
          byteAt_append_left _ (by simp [le32, length_leBytes]; omega)]
        rfl
      rw [hcongr, readLE_leBytes, show (256 : Nat) ^ 4 = 4294967296 by norm_num,
        Nat.mod_eq_of_lt hdo]
    · have hcongr : readLE (UpdateOffsetTableEntry b2 entry_offset data_offset
          data_size).m_buffer (entry_offset + 4) 4
          = readLE (leBytes 4 data_size) 0 4 := by
        refine readLE_congr 4 fun j hj => ?_
        have he : entry_offset + 4 + j = entry_offset + (4 + j) := by omega
        show byteAt (patchBytes b2.m_buffer entry_offset _) (entry_offset + 4 + j)
          = _
        rw [he, byteAt_patchBytes_in _ _ _ hfit' (by rw [hp8]; omega), Nat.zero_add]
        have hlen1 : (le32 (to_little_endian data_offset)).length = 4 := by
          simp [le32, length_leBytes]
        have he2 : 4 + j = (le32 (to_little_endian data_offset)).length + j := by
          rw [hlen1]
        rw [he2, byteAt_append_right]
        rfl
      rw [hcongr, readLE_leBytes, show (256 : Nat) ^ 4 = 4294967296 by norm_num,
        Nat.mod_eq_of_lt hds]
    · intro i hi
      show byteAt (patchBytes b2.m_buffer entry_offset _) i = _
      refine byteAt_patchBytes_out _ _ _ _ ?_
      rw [hp8]
      omega

/-- Witness for C9 at concrete inputs. -/
theorem C9_reserve_patch_frame_witness :
    readLE (UpdateOffsetTableEntry ⟨List.replicate 8 0⟩ 0 24 3).m_buffer 0 4
      = 24 :=
  ((C9_reserve_patch_frame ⟨[]⟩ ⟨List.replicate 8 0⟩ 24 3 (by decide)
      (by decide)).2.2.2.2.2 0 (by decide)).2.1

theorem AddArray_fst (b : RiftBufferBuilder) (esz elem_align : Nat)
    (arr : List Nat) :
    (AddArray b esz elem_align arr).1
      = ⟨(PadToAlignment b elem_align).m_buffer ++ flatLeBytes esz arr⟩ := by
  show arr.foldl (fun bb e => WriteValue bb esz e) (PadToAlignment b elem_align)
    = _
  generalize PadToAlignment b elem_align = b1
  induction arr generalizing b1 with
  | nil => simp [flatLeBytes]
  | cons v r ih =>
    rw [List.foldl_cons, ih]
    simp [WriteValue, WriteRaw, flatLeBytes]

theorem readLE_flatLeBytes (esz : Nat) (arr : List Nat) {i : Nat}
    (hi : i < arr.length) :
    readLE (flatLeBytes esz arr) (i * esz) esz = arr.getD i 0 % 256 ^ esz := by
  induction arr generalizing i with
  | nil => simp at hi
  | cons v r ih =>
    cases i with
    | zero =>
      rw [Nat.zero_mul]
      have hcongr : readLE (flatLeBytes esz (v :: r)) 0 esz
          = readLE (leBytes esz v) 0 esz := by
        refine readLE_congr esz fun j hj => ?_
        show byteAt (leBytes esz (to_little_endian v) ++ flatLeBytes esz r) (0 + j)
          = _
        rw [Nat.zero_add]
        rw [byteAt_append_left _ (by rw [length_leBytes]; omega)]
        rfl
      rw [hcongr, readLE_leBytes]
      rfl
    | succ k =>
      have hesz : esz ≤ (k + 1) * esz := by
        calc esz = 1 * esz := by ring
          _ ≤ (k + 1) * esz := Nat.mul_le_mul_right esz (by omega)
      have he : (k + 1) * esz = esz + k * esz := by ring
      have hcongr : readLE (flatLeBytes esz (v :: r)) ((k + 1) * esz) esz
          = readLE (flatLeBytes esz r) (k * esz) esz := by
        refine readLE_congr esz fun j hj => ?_
        show byteAt (leBytes esz (to_little_endian v) ++ flatLeBytes esz r) _ = _
        rw [byteAt_append_right' _ _ (by rw [length_leBytes]; omega)]
        congr 1
        rw [length_leBytes]
        omega
      rw [hcongr, ih (by simpa using Nat.lt_of_succ_lt_succ hi)]
      rfl

theorem getD_mem_of_lt (l : List Nat) (i : Nat) (hi : i < l.length) :
    l.getD i 0 ∈ l := by
  induction l generalizing i with
  | nil => simp at hi
  | cons v r ih =>
    cases i with
    | zero => exact List.mem_cons_self v r
    | succ k =>
      exact List.mem_cons_of_mem v
        (ih k (by simpa using Nat.lt_of_succ_lt_succ hi))

/-- C6: AddArray pads to the element alignment and returns the aligned
offset where the element bytes begin; a RiftArrayView over the bytes at
that offset with the element count reports that count as its size, and
indexing any valid position decodes the element that was written. -/
theorem C6_array_roundtrip (b : RiftBufferBuilder) (esz elem_align : Nat)
    (arr : List Nat) (i : Nat)
    (halign : 0 < elem_align)
    (hdvd : elem_align ∣ esz)
    (helts : ∀ x ∈ arr, x < 256 ^ esz)
    (hi : i < arr.length)
    (hfit : (PadToAlignment b elem_align).m_buffer.length < 4294967296)
    (hidx : i * esz < 4294967296) :
    (AddArray b esz elem_align arr).2
      = (PadToAlignment b elem_align).m_buffer.length ∧
    (AddArray b esz elem_align arr).2 % elem_align = 0 ∧
    RiftArrayView.size ⟨(AddArray b esz elem_align arr).1.m_buffer.drop
        (AddArray b esz elem_align arr).2, arr.length⟩ = arr.length ∧
    arrayIndex true esz elem_align
        ⟨(AddArray b esz elem_align arr).1.m_buffer.drop
          (AddArray b esz elem_align arr).2, arr.length⟩ i
      = some (arr.getD i 0) := by
  have hoff : (AddArray b esz elem_align arr).2
      = (PadToAlignment b elem_align).m_buffer.length := by
    show (PadToAlignment b elem_align).m_buffer.length % 4294967296 = _
    exact Nat.mod_eq_of_lt hfit
  have hmod : i * esz % 4294967296 = i * esz := Nat.mod_eq_of_lt hidx
  have halignB : is_aligned (i * esz) elem_align = true := by
    obtain ⟨t, rfl⟩ := hdvd
    rw [is_aligned, beq_iff_eq]
    have he : i * (elem_align * t) = elem_align * (i * t) := by ring
    rw [he, Nat.mul_mod_right]
  have hdata : (AddArray b esz elem_align arr).1.m_buffer.drop
      (AddArray b esz elem_align arr).2 = flatLeBytes esz arr := by
    rw [AddArray_fst, hoff]
    exact List.drop_left _ _
  have hread : readLE (flatLeBytes esz arr) (i * esz) esz = arr.getD i 0 := by
    rw [readLE_flatLeBytes esz arr hi,
      Nat.mod_eq_of_lt (helts _ (getD_mem_of_lt arr i hi))]
  refine ⟨hoff, ?_, rfl, ?_⟩
  · rw [hoff]
    exact PadToAlignment_mod b halign
  · rw [arrayIndex, hdata]
    simp [riftAssert, hi, hmod, halignB, GetFixedField, hread,
      from_little_endian]

/-- Witness for C6: build the uint32 array [1, 2, 3] and read index 1. -/
theorem C6_array_roundtrip_witness :
    arrayIndex true 4 4
      ⟨(AddArray ⟨[]⟩ 4 4 [1, 2, 3]).1.m_buffer.drop
        (AddArray ⟨[]⟩ 4 4 [1, 2, 3]).2, 3⟩ 1
      = some 2 :=
  (C6_array_roundtrip ⟨[]⟩ 4 4 [1, 2, 3] 1 (by decide) (by decide) (by decide)
    (by decide) (by decide) (by decide)).2.2.2

theorem length_le32 (v : Nat) : (le32 v).length = 4 := by
  simp [le32, length_leBytes]

theorem applyOp_length_mono (b : RiftBufferBuilder) (op : BuildOp) :
    b.m_buffer.length ≤ (applyOp b op).m_buffer.length := by
  cases op with
  | raw bytes => simp [applyOp, WriteRaw]
  | pad alignment => exact PadToAlignment_le b alignment
  | value esz v => simp [applyOp, WriteValue, WriteRaw]
  | str s =>
    show b.m_buffer.length ≤ ((b.m_buffer ++ s) ++ [0]).length
    simp
  | arr esz elem_align elts =>
    show b.m_buffer.length ≤ (AddArray b esz elem_align elts).1.m_buffer.length
    rw [AddArray_fst]
    show b.m_buffer.length
      ≤ ((PadToAlignment b elem_align).m_buffer ++ flatLeBytes esz elts).length
    have := PadToAlignment_le b elem_align
    simp
    omega
  | reserveEntry =>
    show b.m_buffer.length
      ≤ ((PadToAlignment b 4).m_buffer ++ List.replicate 8 0).length
    have := PadToAlignment_le b 4
    simp
    omega
  | updateEntry eo d_o d_s =>
    show b.m_buffer.length ≤ (patchBytes b.m_buffer eo _).length
    rw [length_patchBytes]

theorem applyOp_header_frame (b : RiftBufferBuilder) (op : BuildOp)
    (object_start_offset i : Nat)
    (hop : headerDisjoint object_start_offset op = true)
    (hi : i < b.m_buffer.length)
    (h1 : object_start_offset ≤ i) (h2 : i < object_start_offset + 16) :
    byteAt (applyOp b op).m_buffer i = byteAt b.m_buffer i := by
  cases op with
  | raw bytes => exact byteAt_append_left _ hi
  | pad alignment => exact byteAt_append_left _ hi
  | value esz v => exact byteAt_append_left _ hi
  | str s =>
    show byteAt ((b.m_buffer ++ s) ++ [0]) i = _
    rw [byteAt_append_left _ (by simp; omega), byteAt_append_left _ hi]
  | arr esz elem_align elts =>
    show byteAt (AddArray b esz elem_align elts).1.m_buffer i = _
    rw [AddArray_fst]
    show byteAt ((PadToAlignment b elem_align).m_buffer ++ flatLeBytes esz elts) i
      = _
    rw [byteAt_append_left _ (lt_of_lt_of_le hi (PadToAlignment_le b elem_align)),
      PadToAlignment_frame b elem_align hi]
  | reserveEntry =>
    show byteAt ((PadToAlignment b 4).m_buffer ++ List.replicate 8 0) i = _
    rw [byteAt_append_left _ (lt_of_lt_of_le hi (PadToAlignment_le b 4)),
      PadToAlignment_frame b 4 hi]
  | updateEntry eo d_o d_s =>
    show byteAt (patchBytes b.m_buffer eo
      (le32 (to_little_endian d_o) ++ le32 (to_little_endian d_s))) i = _
    have hdisj : eo + 8 ≤ object_start_offset ∨ object_start_offset + 16 ≤ eo := by
      rw [headerDisjoint] at hop
      rcases Bool.or_eq_true_iff.mp hop with h | h
      · exact Or.inl (of_decide_eq_true h)
      · exact Or.inr (of_decide_eq_true h)
    refine byteAt_patchBytes_out _ _ _ _ ?_
    have hlen : (le32 (to_little_endian d_o) ++
        le32 (to_little_endian d_s)).length = 8 := by
      simp [length_le32]
    rw [hlen]
    omega

theorem runOps_header_frame (ops : List BuildOp) :
    ∀ (b : RiftBufferBuilder) (object_start_offset : Nat),
      (∀ op ∈ ops, headerDisjoint object_start_offset op = true) →
      b.m_buffer.length ≤ (runOps b ops).m_buffer.length ∧
      (∀ i, object_start_offset ≤ i → i < object_start_offset + 16 →
        i < b.m_buffer.length →
        byteAt (runOps b ops).m_buffer i = byteAt b.m_buffer i) := by
  induction ops with
  | nil => exact fun b s h => ⟨Nat.le_refl _, fun i _ _ _ => rfl⟩
  | cons op rest ih =>
    intro b object_start_offset h
    have hop := h op (List.mem_cons_self op rest)
    have hrest : ∀ op2 ∈ rest, headerDisjoint object_start_offset op2 = true :=
      fun o ho => h o (List.mem_cons_of_mem _ ho)
    obtain ⟨ihlen, ihframe⟩ := ih (applyOp b op) object_start_offset hrest
    have hstep : runOps b (op :: rest) = runOps (applyOp b op) rest := rfl
    constructor
    · rw [hstep]
      exact Nat.le_trans (applyOp_length_mono b op) ihlen
    · intro i h1 h2 h3
      rw [hstep,
        ihframe i h1 h2 (lt_of_lt_of_le h3 (applyOp_length_mono b op)),
        applyOp_header_frame b op object_start_offset i hop h3 h1 h2]

/-- C1: for every build sequence - BeginObject, then any builder calls
whose offset-table patches stay out of this object's header region, then
EndObject - a view constructed over the bytes at the object's start passes
the constructor's validation and reports the schema_id passed to
BeginObject and the total size computed by EndObject (the buffer length at
EndObject minus the start offset). -/
theorem C1_header_roundtrip (b0 : RiftBufferBuilder)
    (schema_id_val version_flags_val : Nat) (ops : List BuildOp)
    (hschema : schema_id_val < 4294967296)
    (hops : ∀ op ∈ ops,
      headerDisjoint (BeginObject b0 schema_id_val version_flags_val).2 op
        = true)
    (hsize : builtObjectSize b0 schema_id_val version_flags_val ops
      ≤ 4294967295) :
    mkRiftBufferViewBase true
        (builtObject b0 schema_id_val version_flags_val ops)
      = some ⟨builtObject b0 schema_id_val version_flags_val ops⟩ ∧
    GetSchemaId ⟨builtObject b0 schema_id_val version_flags_val ops⟩
      = schema_id_val ∧
    GetTotalSize ⟨builtObject b0 schema_id_val version_flags_val ops⟩
      = builtObjectSize b0 schema_id_val version_flags_val ops := by
  set start := (BeginObject b0 schema_id_val version_flags_val).2 with hstart
  set b1 := (BeginObject b0 schema_id_val version_flags_val).1 with hb1
  set bf := runOps b1 ops with hbf
  set total := builtObjectSize b0 schema_id_val version_flags_val ops with htotal
  have hhdr : b1.m_buffer = (PadToAlignment b0 8).m_buffer ++
      (le32 RIFT_MAGIC_NUMBER ++ le32 schema_id_val ++ le32 0 ++
        le32 version_flags_val) := rfl
  have hstartlen : start = (PadToAlignment b0 8).m_buffer.length := rfl
  have hhdrlen : (le32 RIFT_MAGIC_NUMBER ++ le32 schema_id_val ++ le32 0 ++
      le32 version_flags_val).length = 16 := by
    simp [length_le32]
  have hb1len : b1.m_buffer.length = start + 16 := by
    rw [hhdr, hstartlen, List.length_append, hhdrlen]
  have hb1byte : ∀ j, j < 16 → byteAt b1.m_buffer (start + j)
      = byteAt (le32 RIFT_MAGIC_NUMBER ++ le32 schema_id_val ++ le32 0 ++
        le32 version_flags_val) j := by
    intro j hj
    rw [hhdr, hstartlen, byteAt_append_right]
  obtain ⟨hflen, hframe⟩ := runOps_header_frame ops b1 start hops
  have hbflen : start + 16 ≤ bf.m_buffer.length := by
    rw [← hb1len]; exact hflen
  have hbfbyte : ∀ j, j < 16 → byteAt bf.m_buffer (start + j)
      = byteAt (le32 RIFT_MAGIC_NUMBER ++ le32 schema_id_val ++ le32 0 ++
        le32 version_flags_val) j := by
    intro j hj
    rw [hframe (start + j) (by omega) (by omega) (by omega), hb1byte j hj]
  have htotaldef : total = bf.m_buffer.length - start := rfl
  have hfinal : (EndObject bf start).1.m_buffer
      = patchBytes bf.m_buffer (start + 8) (le32 total) := rfl
  have hobj : builtObject b0 schema_id_val version_flags_val ops
      = (EndObject bf start).1.m_buffer.drop start := rfl
  have hlenle32 : (le32 total).length = 4 := length_le32 total
  have hfit : (start + 8) + (le32 total).length ≤ bf.m_buffer.length := by
    rw [hlenle32]; omega
  have hfinbyte : ∀ j, j < 16 →
      byteAt (builtObject b0 schema_id_val version_flags_val ops) j
        = if 8 ≤ j ∧ j < 12 then byteAt (le32 total) (j - 8)
          else byteAt (le32 RIFT_MAGIC_NUMBER ++ le32 schema_id_val ++ le32 0 ++
            le32 version_flags_val) j := by
    intro j hj
    rw [hobj, byteAt_drop, hfinal]
    by_cases hmid : 8 ≤ j ∧ j < 12
    · rw [if_pos hmid]
      have he : start + j = (start + 8) + (j - 8) := by omega
      rw [he, byteAt_patchBytes_in _ _ _ hfit (by rw [hlenle32]; omega)]
    · rw [if_neg hmid]
      rw [byteAt_patchBytes_out _ _ _ _ (by rw [hlenle32]; omega)]
      exact hbfbyte j hj
  have hmagic : readLE (builtObject b0 schema_id_val version_flags_val ops) 0 4
      = RIFT_MAGIC_NUMBER := by
    have hcongr : readLE (builtObject b0 schema_id_val version_flags_val ops) 0 4
        = readLE (leBytes 4 RIFT_MAGIC_NUMBER) 0 4 := by
      refine readLE_congr 4 fun j hj => ?_
      rw [Nat.zero_add, hfinbyte j (by omega),
        if_neg (by omega),
        byteAt_append_left _ (by simp [length_le32]; omega),
        byteAt_append_left _ (by simp [length_le32]; omega),
        byteAt_append_left _ (by rw [length_le32]; omega)]
      rfl
    rw [hcongr, readLE_leBytes]
    decide
  have hschemaread : readLE (builtObject b0 schema_id_val version_flags_val ops)
      4 4 = schema_id_val := by
    have hcongr : readLE (builtObject b0 schema_id_val version_flags_val ops) 4 4
        = readLE (leBytes 4 schema_id_val) 0 4 := by
      refine readLE_congr 4 fun j hj => ?_
      rw [Nat.zero_add, hfinbyte (4 + j) (by omega), if_neg (by omega),
        byteAt_append_left _ (by simp [length_le32]; omega),
        byteAt_append_left _ (by simp [length_le32]; omega),
        byteAt_append_right' _ _ (by rw [length_le32]; omega), length_le32]
      have he : 4 + j - 4 = j := by omega
      rw [he]
      rfl
    rw [hcongr, readLE_leBytes,
      show (256 : Nat) ^ 4 = 4294967296 by norm_num, Nat.mod_eq_of_lt hschema]
  have htotalread : readLE (builtObject b0 schema_id_val version_flags_val ops)
      8 4 = total := by
    have hcongr : readLE (builtObject b0 schema_id_val version_flags_val ops) 8 4
        = readLE (leBytes 4 total) 0 4 := by
      refine readLE_congr 4 fun j hj => ?_
      rw [Nat.zero_add, hfinbyte (8 + j) (by omega), if_pos (by omega)]
      have he : 8 + j - 8 = j := by omega
      rw [he]
      rfl
    rw [hcongr, readLE_leBytes,
      show (256 : Nat) ^ 4 = 4294967296 by norm_num,
      Nat.mod_eq_of_lt (by omega)]
  have htotal16 : 16 ≤ total := by
    rw [htotaldef]; omega
  refine ⟨?_, ?_, ?_⟩
  · rw [mkRiftBufferViewBase]
    simp [riftAssert, from_little_endian, hmagic, htotalread, htotal16]
  · show from_little_endian (readLE _ 4 4) = _
    rw [hschemaread]
    rfl
  · show from_little_endian (readLE _ 8 4) = _
    rw [htotalread]
    rfl

/-- Witness for C1: empty builder, schema 7, flags 1, one fixed uint32 and
one string appended. -/
theorem C1_header_roundtrip_witness :
    GetSchemaId ⟨builtObject ⟨[]⟩ 7 1 [BuildOp.value 4 42,
      BuildOp.str [104, 105]]⟩ = 7 :=
  (C1_header_roundtrip ⟨[]⟩ 7 1 [BuildOp.value 4 42, BuildOp.str [104, 105]]
    (by decide) (by decide) (by decide)).2.1

/-- Witness for C3's amended theorem at a concrete buffer. -/
theorem C3_view_construction_witness :
    mkRiftBufferViewBase false [] = some ⟨[]⟩ :=
  (C3_view_construction []).1

end RiftSerializer

